import Mathlib

/-
Verification of the classical-cipher cryptanalysis core of this repository:
a shallow embedding in Lean 4 of the Python sources

  * vigenere_cipher.py   (transform_message, encrypt, decrypt)
  * freq_analysis.py     (sort_by_frequency, get_english_score,
                          kasiski_key_lengths, find_factors)
  * simple_subs_cipher.py (combine_maps, get_reduced_map, create_key_from_map)
  * caesar-chiper.py     (encrypt_msg, decrypt_msg)

Python strings are embedded as `List Char`, dictionaries keyed by the 26
letters as length-26 lists indexed by the letter's position in LETTERS,
Python dicts keyed by computed values through their (order-irrelevant
after sorting / membership-only) graph, machine integers as Int/Nat, and
code that can raise IndexError through Option.  Character case operations
(`upper`, `lower`, `islower`, the `[a-zA-Z]` regex class) are modelled at
the ASCII level of Lean's Char primitives; Python's are Unicode-aware, but
every alphabet in these scripts is ASCII.
-/

set_option maxHeartbeats 1000000

/-- Python `s.find(c)` on a string `s`: index of the first occurrence of the
character `c`, and `-1` when `c` does not occur. -/
def pyFind (l : List Char) (c : Char) : Int :=
  match l.findIdx? (· == c) with
  | some i => (i : Int)
  | none => -1

/-- The 26-letter uppercase alphabet `LETTERS` shared by vigenere_cipher.py,
freq_analysis.py and simple_subs_cipher.py. -/
def LETTERS : List Char := "ABCDEFGHIJKLMNOPQRSTUVWXYZ".toList

/-- The canonical English reference frequency order `ETAOIN` of
freq_analysis.py. -/
def ETAOIN : List Char := "ETAOINSHRDLCUMWFGYPBVKJXQZ".toList

namespace Vigenere

/-- The per-character loop of `transform_message` in vigenere_cipher.py,
with the running `key_idx` made explicit.  `key[key_idx]` out of range
(Python IndexError) is `none`.  The key-index update is the source's
`key_idx += 1 if key_idx == (len(key) - 1) else 0`, which by Python
operator precedence adds `1 if key_idx == (len(key) - 1) else 0`. -/
def transformGo (key : List Char) (operation : String) :
    List Char → Nat → Option (List Char)
  | [], _ => some []
  | letter :: rest, keyIdx =>
    if letter.toUpper ∈ LETTERS then
      match key[keyIdx]? with
      | none => none
      | some keyChar =>
        let letterIdx : Int := pyFind LETTERS letter.toUpper
        let letterIdx := if operation == "encrypt" then letterIdx + pyFind LETTERS keyChar else letterIdx
        let letterIdx := if operation == "decrypt" then letterIdx - pyFind LETTERS keyChar else letterIdx
        let letterIdx := letterIdx % (LETTERS.length : Int)
        let enciphered := LETTERS.getD letterIdx.toNat 'A'
        let enciphered := if letter.isLower then enciphered.toLower else enciphered
        let keyIdx' := if keyIdx == key.length - 1 then keyIdx + 1 else keyIdx
        (transformGo key operation rest keyIdx').map (enciphered :: ·)
    else
      (transformGo key operation rest keyIdx).map (letter :: ·)

/-- `transform_message(message, key, operation)` of vigenere_cipher.py:
`none` models the run raising IndexError. -/
def transform_message (message key : List Char) (operation : String) :
    Option (List Char) :=
  transformGo key operation message 0

theorem transformGo_cons (key : List Char) (operation : String) (letter : Char)
    (rest : List Char) (keyIdx : Nat) :
    transformGo key operation (letter :: rest) keyIdx =
      if letter.toUpper ∈ LETTERS then
        match key[keyIdx]? with
        | none => none
        | some keyChar =>
          let letterIdx : Int := pyFind LETTERS letter.toUpper
          let letterIdx := if operation == "encrypt" then letterIdx + pyFind LETTERS keyChar else letterIdx
          let letterIdx := if operation == "decrypt" then letterIdx - pyFind LETTERS keyChar else letterIdx
          let letterIdx := letterIdx % (LETTERS.length : Int)
          let enciphered := LETTERS.getD letterIdx.toNat 'A'
          let enciphered := if letter.isLower then enciphered.toLower else enciphered
          let keyIdx' := if keyIdx == key.length - 1 then keyIdx + 1 else keyIdx
          (transformGo key operation rest keyIdx').map (enciphered :: ·)
      else
        (transformGo key operation rest keyIdx).map (letter :: ·) := rfl

/-- Single-character shift by a fixed key letter: the body of one iteration
of `transform_message` run with `key_idx = 0`.  This is the single-shift
(Caesar) cipher over the 26 letters that claim C2 compares against. -/
def single_shift_char (operation : String) (keyChar : Char) (letter : Char) : Char :=
  if letter.toUpper ∈ LETTERS then
    let letterIdx : Int := pyFind LETTERS letter.toUpper
    let letterIdx := if operation == "encrypt" then letterIdx + pyFind LETTERS keyChar else letterIdx
    let letterIdx := if operation == "decrypt" then letterIdx - pyFind LETTERS keyChar else letterIdx
    let letterIdx := letterIdx % (LETTERS.length : Int)
    let enciphered := LETTERS.getD letterIdx.toNat 'A'
    if letter.isLower then enciphered.toLower else enciphered
  else letter

theorem transformGo_const (key : List Char) (operation : String) (h : 2 ≤ key.length) :
    ∀ msg : List Char,
      transformGo key operation msg 0 =
        some (msg.map (single_shift_char operation (key.headD 'A')))
  | [] => by simp [transformGo]
  | letter :: rest => by
    obtain ⟨k0, key', rfl⟩ : ∃ k0 key', key = k0 :: key' := by
      cases key with
      | nil => simp at h
      | cons a t => exact ⟨a, t, rfl⟩
    have hlen : (k0 :: key').length - 1 ≠ 0 := by
      simp only [List.length_cons] at h ⊢
      omega
    have hidx : ((0:Nat) == (k0 :: key').length - 1) = false := by
      rw [beq_eq_false_iff_ne]
      exact fun e => hlen e.symm
    rw [transformGo_cons]
    by_cases hc : letter.toUpper ∈ LETTERS
    · simp only [if_pos hc, List.getElem?_cons_zero, hidx, if_neg Bool.false_ne_true,
        Bool.false_eq_true, if_false]
      rw [transformGo_const (k0 :: key') operation h rest]
      simp [single_shift_char, hc]
    · simp only [if_neg hc]
      rw [transformGo_const (k0 :: key') operation h rest]
      simp [single_shift_char, hc]

/-- Characters the transform loop treats as alphabetic (everything whose
uppercasing lies in LETTERS). -/
def isCipherLetter (c : Char) : Bool := decide (c.toUpper ∈ LETTERS)

theorem transformGo_exhausted (key : List Char) (operation : String) :
    ∀ (msg : List Char) (keyIdx : Nat), key.length ≤ keyIdx →
      1 ≤ msg.countP isCipherLetter →
      transformGo key operation msg keyIdx = none
  | [], _, _, hcount => by simp at hcount
  | letter :: rest, keyIdx, hk, hcount => by
    rw [transformGo_cons]
    by_cases hc : letter.toUpper ∈ LETTERS
    · have : key[keyIdx]? = none := by
        rw [List.getElem?_eq_none_iff]
        exact hk
      simp [hc, this]
    · have hcount' : 1 ≤ rest.countP isCipherLetter := by
        have : isCipherLetter letter = false := by
          simp [isCipherLetter, hc]
        rw [List.countP_cons, this] at hcount
        simpa using hcount
      simp only [if_neg hc]
      rw [transformGo_exhausted key operation rest keyIdx hk hcount']
      rfl

end Vigenere

/-- C1: the round-trip claim fails on the code for the Vigenere family at a
key inside its valid keyspace.  At message "AB" and the single-letter key
"K" the source's `encrypt` (hence `transform_message`) raises IndexError —
modelled as `none` — because after the first letter the key index is
incremented to 1 (`key_idx += 1 if key_idx == (len(key) - 1) else 0` at
key_idx = 0 = len(key) - 1) and `key[1]` is out of range, so
decrypt(encrypt(M,K),K) = M cannot hold there.  The source's own comments
("The index of the key will rotate", "Rotate the subkey on each iteration")
and its length-20-key tests show rotation was the intent. -/
theorem c1_vigenere_roundtrip_fails_at_single_letter_key :
    Vigenere.transform_message ['A', 'B'] ['K'] "encrypt" = none := by decide

/-- C2: for every message and every key of length at least 2,
`transform_message` never advances its key index, so the output is the
single-shift (Caesar) transform by the first key letter alone, and any
other length-≥2 key with the same first letter produces the same output. -/
theorem c2_vigenere_acts_as_single_shift (msg key : List Char) (operation : String)
    (h : 2 ≤ key.length) :
    Vigenere.transform_message msg key operation =
      some (msg.map (Vigenere.single_shift_char operation (key.headD 'A'))) ∧
    ∀ key₂ : List Char, 2 ≤ key₂.length → key₂.headD 'A' = key.headD 'A' →
      Vigenere.transform_message msg key₂ operation =
        Vigenere.transform_message msg key operation := by
  constructor
  · exact Vigenere.transformGo_const key operation h msg
  · intro key₂ h₂ hhead
    rw [Vigenere.transform_message, Vigenere.transform_message,
      Vigenere.transformGo_const key operation h msg,
      Vigenere.transformGo_const key₂ operation h₂ msg, hhead]

/-- Witness for C2 at the concrete message "Ab!" and keys "CXY", "CQQ": the
output is the single shift by 'C' and is independent of the key tail. -/
theorem c2_vigenere_acts_as_single_shift_witness :
    Vigenere.transform_message ['A', 'b', '!'] ['C', 'X', 'Y'] "encrypt" =
      some (['A', 'b', '!'].map (Vigenere.single_shift_char "encrypt" 'C')) ∧
    Vigenere.transform_message ['A', 'b', '!'] ['C', 'Q', 'Q'] "encrypt" =
      Vigenere.transform_message ['A', 'b', '!'] ['C', 'X', 'Y'] "encrypt" := by
  have h := c2_vigenere_acts_as_single_shift ['A', 'b', '!'] ['C', 'X', 'Y'] "encrypt"
    (by decide)
  exact ⟨h.1, h.2 ['C', 'Q', 'Q'] (by decide) (by decide)⟩

/-- C3: with a key of length exactly 1 and a message containing at least two
alphabetic characters, `transform_message` (hence both `encrypt` and
`decrypt`, which call it) raises IndexError, modelled as `none`: after the
first alphabetic character the key index becomes 1 and `key[1]` is out of
range. -/
theorem c3_vigenere_single_letter_key_raises (msg key : List Char) (operation : String)
    (hkey : key.length = 1) (hmsg : 2 ≤ msg.countP Vigenere.isCipherLetter) :
    Vigenere.transform_message msg key operation = none := by
  rw [Vigenere.transform_message]
  induction msg with
  | nil => simp at hmsg
  | cons letter rest ih =>
    rw [Vigenere.transformGo_cons]
    by_cases hc : letter.toUpper ∈ LETTERS
    · obtain ⟨k0, rfl⟩ : ∃ k0, key = [k0] := by
        cases key with
        | nil => simp at hkey
        | cons a t =>
          cases t with
          | nil => exact ⟨a, rfl⟩
          | cons b u => simp at hkey
      have hrest : 1 ≤ rest.countP Vigenere.isCipherLetter := by
        have hl : Vigenere.isCipherLetter letter = true := by
          simp [Vigenere.isCipherLetter, hc]
        rw [List.countP_cons, hl, if_pos rfl] at hmsg
        omega
      have hnone := Vigenere.transformGo_exhausted [k0] operation rest 1 (by simp) hrest
      simp [hc, hnone]
    · have hrest : 2 ≤ rest.countP Vigenere.isCipherLetter := by
        have : Vigenere.isCipherLetter letter = false := by
          simp [Vigenere.isCipherLetter, hc]
        rw [List.countP_cons, this] at hmsg
        simpa using hmsg
      simp only [if_neg hc]
      rw [ih hrest]
      rfl

/-- Witness for C3 at the concrete message "X?yZ" (two alphabetic characters
around a passthrough one) and the single-letter key "Q" under decryption —
the configuration freq_analysis.py uses for per-column subkey scoring. -/
theorem c3_vigenere_single_letter_key_raises_witness :
    Vigenere.transform_message ['X', '?', 'y', 'Z'] ['Q'] "decrypt" = none :=
  c3_vigenere_single_letter_key_raises ['X', '?', 'y', 'Z'] ['Q'] "decrypt"
    (by decide) (by decide)

namespace FreqAnalysis

/-- `get_english_score(frequency_list)` from freq_analysis.py: the number of
letters among the six most frequent of the reference order ETAOIN that occur
among the first six of the given ranking, plus the number among the six
least frequent occurring among its last six (Python slices `[:6]`/`[-6:]`).
-/
def get_english_score (frequencyList : List Char) : Nat :=
  ((ETAOIN.take 6).filter (fun c => c ∈ frequencyList.take 6)).length +
  ((ETAOIN.drop (ETAOIN.length - 6)).filter
    (fun c => c ∈ frequencyList.drop (frequencyList.length - 6))).length

/-- `find_factors(number, max)` from freq_analysis.py: walk `range(2, max+1)`,
collect every `idx` dividing `number`, additionally collect `idx // 2` when
`idx // 2 > 1 and idx // 2 < max`, and return the results as a set (Python
`set(factors)`; embedded as a duplicate-free list whose membership is the
set's). -/
def find_factors (number : Int) (mx : Nat) : List Nat :=
  ((List.range' 2 (mx - 1)).flatMap (fun idx =>
    if number % (idx : Int) == 0 then
      [idx] ++ (if 1 < idx / 2 ∧ idx / 2 < mx then [idx / 2] else [])
    else [])).dedup

/-- Letters-only, uppercased normalization used at the start of
`kasiski_key_lengths` (the regex `[^a-zA-Z]` removal followed by
`.upper()`). -/
def normalizeLetters (s : List Char) : List Char :=
  (s.filter Char.isAlpha).map Char.toUpper

/-- The window `ciphertext[j:j+3]` scanned by `kasiski_key_lengths`. -/
def trigramAt (t : List Char) (j : Nat) : List Char := (t.drop j).take 3

/-- `kasiski_key_lengths(ciphertext)` from freq_analysis.py: normalize, record
every window `ciphertext[j:j+3]` for `j in range(len)` under its pattern with
end position `j + 3` (a Python dict keyed by the pattern; embedded through
the deduplicated pattern list — the dict's grouping — since the claims only
concern which distances occur), then for every pattern occurring at least
twice emit `x - y` for every ordered pair `y < x` of its end positions. -/
def kasiski_key_lengths (s : List Char) : List Nat :=
  let ciphertext := normalizeLetters s
  let n := ciphertext.length
  let patterns := (List.range n).map (fun j => trigramAt ciphertext j)
  patterns.dedup.flatMap (fun pat =>
    let sequence := ((List.range n).filter
      (fun j => trigramAt ciphertext j == pat)).map (· + 3)
    if sequence.length < 2 then []
    else sequence.flatMap (fun x =>
      (sequence.filter (fun y => y < x)).map (fun y => x - y)))

end FreqAnalysis

theorem two_mem_two_le_length {α : Type} (l : List α) (a b : α)
    (ha : a ∈ l) (hb : b ∈ l) (hab : a ≠ b) : 2 ≤ l.length := by
  match l, ha, hb with
  | [x], ha, hb =>
    rw [List.mem_singleton] at ha hb
    exact absurd (ha.trans hb.symm) hab
  | x :: y :: t, _, _ => simp [List.length_cons]

/-- C10: for every frequency ranking that is a permutation of the 26 letters
the English score lies between 0 and 12, and the reference order ETAOIN
itself scores exactly 12 (6 from the most-frequent six plus 6 from the
least-frequent six). -/
theorem c10_english_score_bounds (rank : List Char)
    (hperm : List.Perm rank LETTERS) :
    0 ≤ FreqAnalysis.get_english_score rank ∧
    FreqAnalysis.get_english_score rank ≤ 12 ∧
    FreqAnalysis.get_english_score ETAOIN = 12 := by
  refine ⟨Nat.zero_le _, ?_, by decide⟩
  have h1 := List.length_filter_le
    (fun c => decide (c ∈ rank.take 6)) (ETAOIN.take 6)
  have h2 := List.length_filter_le
    (fun c => decide (c ∈ rank.drop (rank.length - 6)))
    (ETAOIN.drop (ETAOIN.length - 6))
  have e1 : (ETAOIN.take 6).length = 6 := by decide
  have e2 : (ETAOIN.drop (ETAOIN.length - 6)).length = 6 := by decide
  unfold FreqAnalysis.get_english_score
  omega

/-- Witness for C10 at the concrete ranking ETAOIN itself (a permutation of
the 26 letters). -/
theorem c10_english_score_bounds_witness :
    FreqAnalysis.get_english_score ETAOIN ≤ 12 ∧
    FreqAnalysis.get_english_score ETAOIN = 12 :=
  ⟨(c10_english_score_bounds ETAOIN (by decide)).2.1,
   (c10_english_score_bounds ETAOIN (by decide)).2.2⟩

/-- C9: for every integer `number` and bound `mx ≥ 2`, `find_factors` returns
exactly the divisors of `number` in `[2, mx]` together with `e / 2` for each
such divisor `e` whenever `e / 2` also lies in `[2, mx]` — the heuristic
half-divisor widening is present exactly as specified.  (The source guard
`idx // 2 > 1 and idx // 2 < max` coincides with `2 ≤ e/2 ≤ mx` because
`e ≤ mx` forces `e / 2 ≤ mx / 2 < mx`.) -/
theorem c9_find_factors_exact (number : Int) (mx : Nat) (hmx : 2 ≤ mx) (d : Nat) :
    d ∈ FreqAnalysis.find_factors number mx ↔
      (2 ≤ d ∧ d ≤ mx ∧ (d : Int) ∣ number) ∨
      (∃ e : Nat, 2 ≤ e ∧ e ≤ mx ∧ (e : Int) ∣ number ∧
        d = e / 2 ∧ 2 ≤ d ∧ d ≤ mx) := by
  unfold FreqAnalysis.find_factors
  rw [List.mem_dedup, List.mem_flatMap]
  constructor
  · rintro ⟨idx, hidx, hd⟩
    rw [List.mem_range'_1] at hidx
    have hrange : 2 ≤ idx ∧ idx ≤ mx := by omega
    by_cases hdvd : number % (idx : Int) == 0
    · rw [if_pos hdvd] at hd
      have hdvd' : (idx : Int) ∣ number :=
        Int.dvd_of_emod_eq_zero (beq_iff_eq.mp hdvd)
      rcases List.mem_append.mp hd with h1 | h2
      · rw [List.mem_singleton] at h1
        subst h1
        exact Or.inl ⟨hrange.1, hrange.2, hdvd'⟩
      · by_cases hg : 1 < idx / 2 ∧ idx / 2 < mx
        · rw [if_pos hg, List.mem_singleton] at h2
          subst h2
          exact Or.inr ⟨idx, hrange.1, hrange.2, hdvd', rfl, by omega, by omega⟩
        · rw [if_neg hg] at h2
          exact absurd h2 (List.not_mem_nil _)
    · rw [if_neg hdvd] at hd
      exact absurd hd (List.not_mem_nil _)
  · rintro (⟨h2d, hdmx, hdvd⟩ | ⟨e, h2e, hemx, hdvd, rfl, h2d, hdmx⟩)
    · refine ⟨d, List.mem_range'_1.mpr (by omega), ?_⟩
      rw [if_pos (beq_iff_eq.mpr (Int.emod_eq_zero_of_dvd hdvd))]
      exact List.mem_append_left _ (List.mem_singleton.mpr rfl)
    · refine ⟨e, List.mem_range'_1.mpr (by omega), ?_⟩
      rw [if_pos (beq_iff_eq.mpr (Int.emod_eq_zero_of_dvd hdvd))]
      have hhalf : e / 2 < mx := by
        have h1 : e / 2 ≤ mx / 2 := Nat.div_le_div_right hemx
        have h2 : mx / 2 < mx := Nat.div_lt_self (by omega) (by omega)
        omega
      exact List.mem_append_right _
        (by rw [if_pos ⟨by omega, hhalf⟩]; exact List.mem_singleton.mpr rfl)

/-- Witness for C9: 3 is in `find_factors 12 16` through the half-divisor
widening (3 = 6 / 2 for the divisor 6 of 12). -/
theorem c9_find_factors_exact_witness : 3 ∈ FreqAnalysis.find_factors 12 16 :=
  (c9_find_factors_exact 12 16 (by decide) 3).mpr
    (Or.inr ⟨6, by decide, by decide, ⟨2, by norm_num⟩, by decide, by decide, by decide⟩)

/-- C8: whenever the letters-only, case-normalized ciphertext has equal
3-letter windows starting at positions `p < q` (both windows fully inside
the text), the Kasiski distance list contains `q - p`. -/
theorem c8_kasiski_contains_distance (s : List Char) (p q : Nat) (hpq : p < q)
    (hq : q + 3 ≤ (FreqAnalysis.normalizeLetters s).length)
    (hw : FreqAnalysis.trigramAt (FreqAnalysis.normalizeLetters s) p =
          FreqAnalysis.trigramAt (FreqAnalysis.normalizeLetters s) q) :
    q - p ∈ FreqAnalysis.kasiski_key_lengths s := by
  unfold FreqAnalysis.kasiski_key_lengths
  set t := FreqAnalysis.normalizeLetters s with ht
  set n := t.length with hn
  rw [List.mem_flatMap]
  refine ⟨FreqAnalysis.trigramAt t p, ?_, ?_⟩
  · rw [List.mem_dedup]
    exact List.mem_map_of_mem _ (List.mem_range.mpr (by omega))
  · set seq := ((List.range n).filter
      (fun j => FreqAnalysis.trigramAt t j == FreqAnalysis.trigramAt t p)).map
        (· + 3) with hseq
    have hp3 : p + 3 ∈ seq :=
      List.mem_map_of_mem _ (List.mem_filter.mpr
        ⟨List.mem_range.mpr (by omega), beq_iff_eq.mpr rfl⟩)
    have hq3 : q + 3 ∈ seq :=
      List.mem_map_of_mem _ (List.mem_filter.mpr
        ⟨List.mem_range.mpr (by omega), beq_iff_eq.mpr hw.symm⟩)
    have hlen : ¬ seq.length < 2 := by
      have := two_mem_two_le_length seq (p + 3) (q + 3) hp3 hq3 (by omega)
      omega
    rw [if_neg hlen, List.mem_flatMap]
    refine ⟨q + 3, hq3, ?_⟩
    have : (q + 3) - (p + 3) = q - p := by omega
    rw [← this]
    exact List.mem_map_of_mem _ (List.mem_filter.mpr ⟨hp3, by simp; omega⟩)

/-- Witness for C8 at the concrete ciphertext "ABCXABC": the trigram "ABC"
repeats at positions 0 and 4, so 4 is among the Kasiski distances. -/
theorem c8_kasiski_contains_distance_witness :
    4 - 0 ∈ FreqAnalysis.kasiski_key_lengths ['A','B','C','X','A','B','C'] :=
  c8_kasiski_contains_distance ['A','B','C','X','A','B','C'] 0 4
    (by decide) (by decide) (by decide)

namespace FreqAnalysis

/-- Position of a letter in the reference order (Python `ETAOIN.find`). -/
def etaoinIdx (c : Char) : Int := pyFind ETAOIN c

instance : IsTotal Nat (fun a b => b ≤ a) := ⟨fun a b => le_total b a⟩

instance : IsTrans Nat (fun a b => b ≤ a) := ⟨fun _ _ _ h1 h2 => le_trans h2 h1⟩

instance : IsTotal Char (fun a b => etaoinIdx b ≤ etaoinIdx a) :=
  ⟨fun a b => le_total (etaoinIdx b) (etaoinIdx a)⟩

instance : IsTrans Char (fun a b => etaoinIdx b ≤ etaoinIdx a) :=
  ⟨fun _ _ _ h1 h2 => le_trans h2 h1⟩

/-- `sort_by_frequency(letter_freq)` from freq_analysis.py.  The source
groups the 26 letters into a dict keyed by their count (iterating the
table in A..Z order), sorts each group with `sorted(v, key=ETAOIN.find,
reverse=True)`, then concatenates the groups sorted by count with
`reverse=True`.  Counts within the dict are pairwise distinct keys, so the
dict's insertion order is irrelevant to the final result; the embedding
therefore takes the distinct counts (`dedup`), sorts them descending, and
concatenates the per-count groups, each sorted by descending `ETAOIN.find`
exactly as `reverse=True` does. -/
def sort_by_frequency (letterFreq : Char → Nat) : List Char :=
  let values := ((LETTERS.map letterFreq).dedup).insertionSort (fun a b => b ≤ a)
  (values.map (fun v =>
    (LETTERS.filter (fun c => letterFreq c == v)).insertionSort
      (fun a b => etaoinIdx b ≤ etaoinIdx a))).flatten

theorem flatten_groups_perm (letterFreq : Char → Nat) :
    ∀ (vs : List Nat) (l : List Char), vs.Nodup →
      List.Perm
        ((vs.map (fun v =>
          (l.filter (fun c => letterFreq c == v)).insertionSort
            (fun a b => etaoinIdx b ≤ etaoinIdx a))).flatten)
        (l.filter (fun c => decide (letterFreq c ∈ vs)))
  | [], l, _ => by simp
  | v :: vs, l, hnd => by
    rw [List.map_cons, List.flatten_cons]
    have hv : v ∉ vs := (List.nodup_cons.mp hnd).1
    have ih := flatten_groups_perm letterFreq vs l (List.nodup_cons.mp hnd).2
    refine ((List.perm_insertionSort _ _).append ih).trans ?_
    have hsplit : ∀ l' : List Char,
        List.Perm (l'.filter (fun c => letterFreq c == v) ++
            l'.filter (fun c => decide (letterFreq c ∈ vs)))
          (l'.filter (fun c => decide (letterFreq c ∈ v :: vs))) := by
      intro l'
      induction l' with
      | nil => simp
      | cons c t iht =>
        by_cases hp : letterFreq c = v
        · have h1 : (letterFreq c == v) = true := by simp [hp]
          have h2 : (decide (letterFreq c ∈ vs)) = false := by simp [hp, hv]
          have h3 : (decide (letterFreq c ∈ v :: vs)) = true := by simp [hp]
          simp only [List.filter_cons, h1, h2, h3, if_true, Bool.false_eq_true,
            if_false, List.cons_append]
          exact iht.cons c
        · have h1 : (letterFreq c == v) = false := by simp [hp]
          by_cases hq : letterFreq c ∈ vs
          · have h2 : (decide (letterFreq c ∈ vs)) = true := by simp [hq]
            have h3 : (decide (letterFreq c ∈ v :: vs)) = true := by simp [hq]
            simp only [List.filter_cons, h1, h2, h3, if_true, Bool.false_eq_true,
              if_false]
            exact (List.perm_middle).trans (iht.cons c)
          · have h2 : (decide (letterFreq c ∈ vs)) = false := by simp [hq]
            have h3 : (decide (letterFreq c ∈ v :: vs)) = false := by simp [hp, hq]
            simp only [List.filter_cons, h1, h2, h3, Bool.false_eq_true, if_false]
            exact iht
    exact hsplit l

/-- C4 counterexample: take the table in which all 26 letters have count 0,
so the whole alphabet is one tie group.  The claim as stated (earliest
letter of the reference order first within a tie group) would give the
reference order ETAOIN itself; the code's `reverse=True` sort gives exactly
the reverse of the reference order, with 'Z' first and 'E' last. -/
theorem c4_counterexample_tie_group_order :
    FreqAnalysis.sort_by_frequency (fun _ => 0) = ETAOIN.reverse ∧
    ETAOIN.reverse ≠ ETAOIN := by
  constructor
  · decide
  · decide

end FreqAnalysis

/-- C4 amended: `sort_by_frequency` returns all 26 letters, ordered first by
strictly decreasing count and, within a tie group of equal counts, by
strictly decreasing position in the canonical reference order ETAOIN — the
letter LATEST in the reference order comes first (reverse reference order;
still neither alphabetical nor insertion order).  The claim's direction of
the tie-break is inverted by the source's `reverse=True`. -/
theorem c4_sort_by_frequency_reverse_reference_tie_break (letterFreq : Char → Nat) :
    List.Perm (FreqAnalysis.sort_by_frequency letterFreq) LETTERS ∧
    (FreqAnalysis.sort_by_frequency letterFreq).Pairwise
      (fun a b => letterFreq b < letterFreq a ∨
        (letterFreq b = letterFreq a ∧
          FreqAnalysis.etaoinIdx b < FreqAnalysis.etaoinIdx a)) := by
  have hlet : LETTERS.Nodup := by decide
  have hinj : ∀ a ∈ LETTERS, ∀ b ∈ LETTERS,
      FreqAnalysis.etaoinIdx a = FreqAnalysis.etaoinIdx b → a = b := by decide
  set values := ((LETTERS.map letterFreq).dedup).insertionSort (fun a b => b ≤ a)
    with hvalues
  have hvnodup : values.Nodup :=
    (List.perm_insertionSort _ _).symm.nodup (List.nodup_dedup _)
  have hvmem : ∀ c ∈ LETTERS, letterFreq c ∈ values := by
    intro c hc
    rw [hvalues, (List.perm_insertionSort _ _).mem_iff, List.mem_dedup]
    exact List.mem_map_of_mem letterFreq hc
  constructor
  · refine (FreqAnalysis.flatten_groups_perm letterFreq values LETTERS hvnodup).trans ?_
    rw [List.filter_eq_self.mpr]
    intro c hc
    simpa using hvmem c hc
  · apply List.pairwise_flatten.mpr
    constructor
    · intro g hg
      rw [List.mem_map] at hg
      obtain ⟨v, hv, rfl⟩ := hg
      have hsorted := List.sorted_insertionSort
        (fun a b => FreqAnalysis.etaoinIdx b ≤ FreqAnalysis.etaoinIdx a)
        (LETTERS.filter (fun c => letterFreq c == v))
      have hnd : ((LETTERS.filter (fun c => letterFreq c == v)).insertionSort
          (fun a b => FreqAnalysis.etaoinIdx b ≤ FreqAnalysis.etaoinIdx a)).Nodup :=
        (List.perm_insertionSort _ _).symm.nodup (hlet.filter _)
      have hmemL : ∀ c ∈ ((LETTERS.filter (fun c => letterFreq c == v)).insertionSort
          (fun a b => FreqAnalysis.etaoinIdx b ≤ FreqAnalysis.etaoinIdx a)),
          c ∈ LETTERS ∧ letterFreq c = v := by
        intro c hc
        rw [(List.perm_insertionSort _ _).mem_iff] at hc
        exact ⟨List.mem_of_mem_filter hc, by simpa using List.of_mem_filter hc⟩
      refine List.Pairwise.imp_of_mem ?_ (hsorted.and hnd)
      intro a b ha hb hab
      obtain ⟨haL, hav⟩ := hmemL a ha
      obtain ⟨hbL, hbv⟩ := hmemL b hb
      refine Or.inr ⟨hbv.trans hav.symm, ?_⟩
      refine lt_of_le_of_ne hab.1 ?_
      intro he
      exact hab.2 (hinj b hbL a haL he).symm
    · rw [List.pairwise_map]
      have hvsorted : values.Pairwise (fun a b => b ≤ a) :=
        List.sorted_insertionSort (fun a b => b ≤ a) ((LETTERS.map letterFreq).dedup)
      have hvlt : values.Pairwise (fun a b => b < a) :=
        (hvsorted.and hvnodup).imp (fun h => lt_of_le_of_ne h.1 (Ne.symm h.2))
      refine hvlt.imp ?_
      intro v w hvw x hx y hy
      rw [(List.perm_insertionSort _ _).mem_iff] at hx hy
      have hxv : letterFreq x = v := by simpa using List.of_mem_filter hx
      have hyw : letterFreq y = w := by simpa using List.of_mem_filter hy
      exact Or.inl (by rw [hxv, hyw]; exact hvw)

namespace SimpleSubs

/-- A cipher-letter constraint map of simple_subs_cipher.py: the Python dict
keyed by the 26 uppercase letters, embedded as a list of candidate-letter
lists in which index `i` holds the entry of letter `LETTERS[i]`. -/
abbrev LMap := List (List Char)

/-- `combine_maps(map_a, map_b)` from simple_subs_cipher.py: per letter, if
map_b has evidence then either copy it wholesale (when map_a has none) or
keep only the letters common to both; letters without new evidence keep
map_a's entry. -/
def combine_maps (mapA mapB : LMap) : LMap :=
  List.zipWith (fun a b =>
    if b ≠ [] then (if a = [] then b else a.filter (fun x => x ∈ b)) else a)
    mapA mapB

/-- Python list assignment `key[i] = c` where `i` may be negative (Python
counts negative indices from the end; `LETTERS.find` returns -1 for a
candidate outside the alphabet). -/
def pySet (l : List Char) (i : Int) (c : Char) : List Char :=
  if 0 ≤ i then l.set i.toNat c else l.set (l.length - (-i).toNat) c

/-- One iteration of the `create_key_from_map` loop at letter index `idx`:
if the letter's candidate list has exactly one element, place the letter at
the position of that candidate in LETTERS. -/
def keyStep (cipherMap : LMap) (key : List Char) (idx : Nat) : List Char :=
  if (cipherMap.getD idx []).length = 1 then
    pySet key (pyFind LETTERS ((cipherMap.getD idx []).headD 'A'))
      (LETTERS.getD idx '_')
  else key

/-- `create_key_from_map(cipher_map)` from simple_subs_cipher.py: start from
`['_'] * 26` and run the loop over the 26 letters. -/
def create_key_from_map (cipherMap : LMap) : List Char :=
  (List.range 26).foldl (keyStep cipherMap) (List.replicate 26 '_')

theorem pySet_length (l : List Char) (i : Int) (c : Char) :
    (pySet l i c).length = l.length := by
  unfold pySet
  split <;> simp

theorem keyStep_length (m : LMap) (key : List Char) (idx : Nat) :
    (keyStep m key idx).length = key.length := by
  unfold keyStep
  split
  · exact pySet_length ..
  · rfl

theorem keyStep_congr (m1 m2 : LMap)
    (h : ∀ idx : Nat, m1.getD idx [] = m2.getD idx [] ∨
      ((m1.getD idx []).length ≠ 1 ∧ (m2.getD idx []).length ≠ 1)) :
    ∀ (idxs : List Nat) (key : List Char),
      idxs.foldl (keyStep m1) key = idxs.foldl (keyStep m2) key
  | [], _ => rfl
  | idx :: idxs, key => by
    have hstep : keyStep m1 key idx = keyStep m2 key idx := by
      rcases h idx with he | ⟨h1, h2⟩
      · unfold keyStep
        rw [he]
      · unfold keyStep
        rw [if_neg h1, if_neg h2]
    rw [List.foldl_cons, List.foldl_cons, hstep]
    exact keyStep_congr m1 m2 h idxs _

theorem foldl_keyStep_length (m : LMap) :
    ∀ (idxs : List Nat) (key : List Char),
      (idxs.foldl (keyStep m) key).length = key.length
  | [], _ => rfl
  | idx :: idxs, key => by
    rw [List.foldl_cons, foldl_keyStep_length m idxs _, keyStep_length]

end SimpleSubs

/-- C5 counterexample: fold three legitimate pieces of single-word evidence
for the first cipher letter — candidate sets {B}, then {C}, then {D} — into
a blank map with `combine_maps` (exactly as `get_letter_mapping` does per
word).  The sizes of that letter's candidate set across the steps are
1, then 0 (contradictory evidence empties it), then 1 again: the size
INCREASES from the second step to the third, because `combine_maps` copies
the new word's evidence wholesale whenever the existing entry is empty. -/
theorem c5_counterexample_candidate_set_regrows :
    ((SimpleSubs.combine_maps
        (SimpleSubs.combine_maps
          (SimpleSubs.combine_maps (List.replicate 26 ([] : List Char))
            (['B'] :: List.replicate 25 []))
          (['C'] :: List.replicate 25 []))
        (['D'] :: List.replicate 25 [])).getD 0 []).length >
    ((SimpleSubs.combine_maps
        (SimpleSubs.combine_maps (List.replicate 26 ([] : List Char))
          (['B'] :: List.replicate 25 []))
        (['C'] :: List.replicate 25 [])).getD 0 []).length := by decide

/-- C5 amended: across `combine_maps` steps a ciphertext letter's
candidate-set size never increases AS LONG AS its current set is nonempty
(new evidence is intersected in); but a letter whose set is empty — either
unconstrained or emptied by contradictory evidence — adopts the new word's
evidence wholesale, which can increase the size. -/
theorem c5_combine_maps_shrinks_nonempty_sets (mapA mapB : SimpleSubs.LMap)
    (i : Nat) :
    (mapA.getD i [] ≠ [] →
      ((SimpleSubs.combine_maps mapA mapB).getD i []).length ≤
        (mapA.getD i []).length) ∧
    (mapA.getD i [] = [] → i < mapA.length → i < mapB.length →
      (SimpleSubs.combine_maps mapA mapB).getD i [] = mapB.getD i []) := by
  induction mapA generalizing mapB i with
  | nil =>
    constructor
    · intro h
      simp at h
    · intro _ h
      simp at h
  | cons a ta ih =>
    cases mapB with
    | nil =>
      constructor
      · intro _
        simp [SimpleSubs.combine_maps]
      · intro _ _ h
        simp at h
    | cons b tb =>
      cases i with
      | zero =>
        constructor
        · intro h
          rw [List.getD_cons_zero] at h
          rw [SimpleSubs.combine_maps, List.zipWith_cons_cons,
            List.getD_cons_zero, List.getD_cons_zero]
          by_cases hb : b = []
          · rw [if_neg (by simp [hb])]
          · rw [if_pos hb, if_neg h]
            exact List.length_filter_le _ a
        · intro h _ _
          rw [List.getD_cons_zero] at h
          rw [SimpleSubs.combine_maps, List.zipWith_cons_cons,
            List.getD_cons_zero, List.getD_cons_zero]
          by_cases hb : b = []
          · rw [if_neg (by simp [hb]), h, hb]
          · rw [if_pos hb, if_pos h]
      | succ n =>
        constructor
        · intro h
          rw [List.getD_cons_succ] at h
          have := (ih tb n).1 h
          rw [SimpleSubs.combine_maps, List.zipWith_cons_cons,
            List.getD_cons_succ, List.getD_cons_succ]
          exact this
        · intro h hla hlb
          rw [List.getD_cons_succ] at h
          rw [List.length_cons] at hla hlb
          have := (ih tb n).2 h (by omega) (by omega)
          rw [SimpleSubs.combine_maps, List.zipWith_cons_cons,
            List.getD_cons_succ, List.getD_cons_succ]
          exact this

/-- Witness for C5 (amended) at concrete maps: a nonempty entry {A,B} only
shrinks under new evidence {B,C}, and an empty entry adopts the new
evidence {D} wholesale. -/
theorem c5_combine_maps_shrinks_nonempty_sets_witness :
    ((SimpleSubs.combine_maps [['A', 'B']] [['B', 'C']]).getD 0 []).length ≤ 2 ∧
    (SimpleSubs.combine_maps [[]] [['D']]).getD 0 [] = ['D'] :=
  ⟨(c5_combine_maps_shrinks_nonempty_sets [['A', 'B']] [['B', 'C']] 0).1
      (by decide),
   (c5_combine_maps_shrinks_nonempty_sets [[]] [['D']] 0).2
      (by decide) (by decide) (by decide)⟩

/-- C7 counterexample: `create_key_from_map` produces the identical partial
key — all 26 positions the unresolved marker `_` — whether the first
letter's candidate set is empty (contradictory evidence) or merely
ambiguous: no contradiction is reported anywhere, the empty set is silently
treated exactly like an ambiguous one. -/
theorem c7_counterexample_contradiction_not_reported :
    SimpleSubs.create_key_from_map (([] : List Char) :: List.replicate 25 ['A', 'B']) =
      SimpleSubs.create_key_from_map (['X', 'Y'] :: List.replicate 25 ['A', 'B']) ∧
    SimpleSubs.create_key_from_map (([] : List Char) :: List.replicate 25 ['A', 'B']) =
      List.replicate 26 '_' := by
  constructor
  · decide
  · decide

/-- C7 amended: key derivation on a map with an empty candidate set does not
crash — it always returns a 26-character partial key — but it does not
report a contradiction either: an empty set is handled exactly like an
ambiguous one, contributing the same `_` unresolved marker (replacing an
empty entry by any non-singleton entry leaves the derived key unchanged). -/
theorem c7_create_key_total_empty_like_ambiguous (m : SimpleSubs.LMap) (i : Nat)
    (l2 : List Char) (hempty : m.getD i [] = []) (hl2 : l2.length ≠ 1) :
    SimpleSubs.create_key_from_map (m.set i l2) =
      SimpleSubs.create_key_from_map m ∧
    (SimpleSubs.create_key_from_map m).length = 26 := by
  constructor
  · unfold SimpleSubs.create_key_from_map
    apply SimpleSubs.keyStep_congr
    intro idx
    by_cases hidx : idx = i
    · subst hidx
      by_cases hlen : idx < m.length
      · right
        constructor
        · rw [List.getD_eq_getElem?_getD, List.getElem?_set_self (by omega)]
          simpa using hl2
        · rw [hempty]
          simp
      · left
        rw [List.set_eq_of_length_le (by omega)]
    · left
      rw [List.getD_eq_getElem?_getD, List.getD_eq_getElem?_getD,
        List.getElem?_set_ne (by omega)]
  · unfold SimpleSubs.create_key_from_map
    rw [SimpleSubs.foldl_keyStep_length]
    simp

/-- Witness for C7 (amended) at the concrete map [[B], []]: replacing the
empty second entry by the ambiguous {X,Y} leaves the derived key unchanged,
and the key has 26 characters. -/
theorem c7_create_key_total_empty_like_ambiguous_witness :
    SimpleSubs.create_key_from_map ([['B'], []].set 1 ['X', 'Y']) =
      SimpleSubs.create_key_from_map [['B'], []] ∧
    (SimpleSubs.create_key_from_map [['B'], []]).length = 26 :=
  c7_create_key_total_empty_like_ambiguous [['B'], []] 1 ['X', 'Y']
    (by decide) (by decide)

namespace SimpleSubs

/-- One solved value `s` applied to one candidate list — the body of the
inner loop of `get_reduced_map` in simple_subs_cipher.py: a list longer
than one element that contains `s` has `s` removed, and when the removal
leaves exactly one element that element is emitted for the worklist
(`solved_letters.append`). -/
def stepSolved (s : Char) (l : List Char) : List Char × List Char :=
  if 1 < l.length ∧ s ∈ l then
    (l.erase s, if (l.erase s).length = 1 then l.erase s else [])
  else (l, [])

/-- One iteration of the outer `for s in solved_letters` loop of
`get_reduced_map`: reduce every entry (the entries are independent) and
collect the newly created singletons in letter order, exactly the order in
which the source appends them to `solved_letters`. -/
def processSolved (m : LMap) (s : Char) : LMap × List Char :=
  (m.map (fun l => (stepSolved s l).1),
   (m.map (fun l => (stepSolved s l).2)).flatten)

/-- Total number of candidate entries across the map (termination measure).
-/
def totalSize (m : LMap) : Nat := (m.map List.length).sum

theorem stepSolved_size (s : Char) (l : List Char) :
    (stepSolved s l).1.length + (stepSolved s l).2.length ≤ l.length := by
  by_cases h : 1 < l.length ∧ s ∈ l
  · have he : (l.erase s).length = l.length - 1 := List.length_erase_of_mem h.2
    by_cases h1 : (l.erase s).length = 1
    · simp only [stepSolved, if_pos h, if_pos h1]
      omega
    · simp only [stepSolved, if_pos h, if_neg h1, List.length_nil]
      omega
  · simp [stepSolved, if_neg h]

theorem processSolved_size (s : Char) :
    ∀ m : LMap,
      totalSize (processSolved m s).1 + (processSolved m s).2.length ≤ totalSize m
  | [] => by simp [processSolved, totalSize]
  | l :: m => by
    have h1 := stepSolved_size s l
    have h2 := processSolved_size s m
    simp only [processSolved, totalSize, List.map_cons, List.flatten_cons,
      List.sum_cons, List.length_append] at *
    omega

/-- The worklist loop of `get_reduced_map`: Python iterates `for s in
solved_letters` over a list that grows at its end while being traversed,
which is exactly first-in-first-out processing of `rest ++ new`. -/
def reduceLoop (m : LMap) (queue : List Char) : LMap :=
  match queue with
  | [] => m
  | s :: rest => reduceLoop (processSolved m s).1 (rest ++ (processSolved m s).2)
termination_by totalSize m + queue.length
decreasing_by
  have := processSolved_size s m
  simp only [List.length_append, List.length_cons]
  omega

/-- `get_reduced_map(cipher_map)` from simple_subs_cipher.py: the worklist
starts as `[x[0] for x in cipher_map.values() if len(x) == 1]` — the heads
of the current singleton entries in letter order, i.e. the concatenation of
the singleton entries themselves. -/
def get_reduced_map (cipherMap : LMap) : LMap :=
  reduceLoop cipherMap ((cipherMap.filter (fun l => l.length == 1)).flatten)

/-- No entry of the map with more than one element contains `s`. -/
def noBig (m : LMap) (s : Char) : Prop := ∀ l ∈ m, 1 < l.length → s ∉ l

/-- Every value solved in the map (a singleton entry) has been fully
propagated out of the larger entries. -/
def Fixed (m : LMap) : Prop := ∀ s : Char, [s] ∈ m → noBig m s

theorem stepSolved_fst_sub (s : Char) (l : List Char) : (stepSolved s l).1 ⊆ l := by
  by_cases h : 1 < l.length ∧ s ∈ l
  · simp only [stepSolved, if_pos h]
    exact List.erase_subset s l
  · simp [stepSolved, if_neg h]

theorem stepSolved_fst_length (s : Char) (l : List Char) :
    (stepSolved s l).1.length ≤ l.length := by
  by_cases h : 1 < l.length ∧ s ∈ l
  · simp only [stepSolved, if_pos h]
    exact List.length_erase_le s l
  · simp [stepSolved, if_neg h]

theorem stepSolved_fst_nodup (s : Char) (l : List Char) (h : l.Nodup) :
    (stepSolved s l).1.Nodup := by
  by_cases hc : 1 < l.length ∧ s ∈ l
  · simp only [stepSolved, if_pos hc]
    exact h.erase s
  · simpa [stepSolved, if_neg hc] using h

theorem stepSolved_fst_not_mem (s : Char) (l : List Char) (h : l.Nodup)
    (hlen : 1 < (stepSolved s l).1.length) : s ∉ (stepSolved s l).1 := by
  by_cases hc : 1 < l.length ∧ s ∈ l
  · simp only [stepSolved, if_pos hc] at *
    exact h.not_mem_erase
  · simp only [stepSolved, if_neg hc] at *
    intro hs
    exact hc ⟨hlen, hs⟩

theorem stepSolved_singleton (s t : Char) (l : List Char)
    (h : (stepSolved s l).1 = [t]) : l = [t] ∨ t ∈ (stepSolved s l).2 := by
  by_cases hc : 1 < l.length ∧ s ∈ l
  · simp only [stepSolved, if_pos hc] at *
    right
    rw [h]
    simp
  · simp only [stepSolved, if_neg hc] at *
    exact Or.inl h

theorem processSolved_nodup (m : LMap) (s : Char) (h : ∀ l ∈ m, l.Nodup) :
    ∀ l ∈ (processSolved m s).1, l.Nodup := by
  intro l' hl'
  rw [processSolved, List.mem_map] at hl'
  obtain ⟨l, hl, rfl⟩ := hl'
  exact stepSolved_fst_nodup s l (h l hl)

theorem processSolved_noBig_self (m : LMap) (s : Char) (h : ∀ l ∈ m, l.Nodup) :
    noBig (processSolved m s).1 s := by
  intro l' hl' hlen
  rw [processSolved, List.mem_map] at hl'
  obtain ⟨l, hl, rfl⟩ := hl'
  exact stepSolved_fst_not_mem s l (h l hl) hlen

theorem processSolved_noBig_mono (m : LMap) (s t : Char) (h : noBig m t) :
    noBig (processSolved m s).1 t := by
  intro l' hl' hlen ht
  rw [processSolved, List.mem_map] at hl'
  obtain ⟨l, hl, rfl⟩ := hl'
  have h1 : 1 < l.length := lt_of_lt_of_le hlen (stepSolved_fst_length s l)
  exact h l hl h1 (stepSolved_fst_sub s l ht)

theorem processSolved_solved (m : LMap) (s t : Char)
    (h : [t] ∈ (processSolved m s).1) : [t] ∈ m ∨ t ∈ (processSolved m s).2 := by
  rw [processSolved, List.mem_map] at h
  obtain ⟨l, hl, he⟩ := h
  rcases stepSolved_singleton s t l he with h1 | h2
  · exact Or.inl (h1 ▸ hl)
  · right
    rw [processSolved, List.mem_flatten]
    exact ⟨(stepSolved s l).2, List.mem_map_of_mem _ hl, h2⟩

theorem reduceLoop_fixed (m : LMap) (queue : List Char)
    (hn : ∀ l ∈ m, l.Nodup)
    (hinv : ∀ s : Char, [s] ∈ m → s ∈ queue ∨ noBig m s) :
    Fixed (reduceLoop m queue) ∧ ∀ l ∈ reduceLoop m queue, l.Nodup := by
  match queue with
  | [] =>
    rw [reduceLoop]
    refine ⟨fun s hs => ?_, hn⟩
    rcases hinv s hs with hq | hnb
    · exact absurd hq (List.not_mem_nil s)
    · exact hnb
  | s :: rest =>
    rw [reduceLoop]
    refine reduceLoop_fixed (processSolved m s).1 (rest ++ (processSolved m s).2)
      (processSolved_nodup m s hn) ?_
    intro t ht
    rcases processSolved_solved m s t ht with hsv | hnew
    · rcases hinv t hsv with hq | hnb
      · rcases List.mem_cons.mp hq with rfl | hr
        · exact Or.inr (processSolved_noBig_self m t hn)
        · exact Or.inl (List.mem_append_left _ hr)
      · exact Or.inr (processSolved_noBig_mono m s t hnb)
    · exact Or.inl (List.mem_append_right _ hnew)
termination_by totalSize m + queue.length
decreasing_by
  have := processSolved_size s m
  simp only [List.length_append, List.length_cons]
  omega

theorem processSolved_noop_fst (m : LMap) (s : Char) (h : noBig m s) :
    (processSolved m s).1 = m := by
  rw [processSolved]
  have hfst : ∀ l ∈ m, (stepSolved s l).1 = l := by
    intro l hl
    rw [stepSolved, if_neg]
    rintro ⟨h1, h2⟩
    exact h l hl h1 h2
  exact (List.map_congr_left hfst).trans (List.map_id m)

theorem processSolved_noop_snd (m : LMap) (s : Char) (h : noBig m s) :
    (processSolved m s).2 = [] := by
  rw [processSolved]
  rw [List.flatten_eq_nil_iff]
  intro l' hl'
  rw [List.mem_map] at hl'
  obtain ⟨l, hl, rfl⟩ := hl'
  rw [stepSolved, if_neg]
  rintro ⟨h1, h2⟩
  exact h l hl h1 h2

theorem reduceLoop_noop (m : LMap) (hfix : Fixed m) :
    ∀ queue : List Char, (∀ s ∈ queue, [s] ∈ m) → reduceLoop m queue = m
  | [] => fun _ => by rw [reduceLoop]
  | s :: rest => fun hq => by
    have hnb : noBig m s := hfix s (hq s (List.mem_cons_self s rest))
    rw [reduceLoop, processSolved_noop_fst m s hnb, processSolved_noop_snd m s hnb,
      List.append_nil]
    exact reduceLoop_noop m hfix rest (fun t ht => hq t (List.mem_cons_of_mem s ht))

theorem mem_initial_queue (m : LMap) (s : Char)
    (h : s ∈ (m.filter (fun l => l.length == 1)).flatten) : [s] ∈ m := by
  rw [List.mem_flatten] at h
  obtain ⟨l, hl, hsl⟩ := h
  have hll : l.length = 1 := by simpa using List.of_mem_filter hl
  obtain ⟨x, rfl⟩ := List.length_eq_one.mp hll
  rw [List.mem_singleton] at hsl
  subst hsl
  exact List.mem_of_mem_filter hl

end SimpleSubs

/-- C6: `get_reduced_map` is idempotent on maps whose candidate lists are
duplicate-free: one call already iterates singleton elimination to a
fixpoint (the Python loop `for s in solved_letters` also traverses the
elements appended while looping, so values solved by a removal are
themselves processed), hence a second call changes nothing. -/
theorem c6_get_reduced_map_idempotent (m : SimpleSubs.LMap)
    (hnd : ∀ l ∈ m, l.Nodup) :
    SimpleSubs.get_reduced_map (SimpleSubs.get_reduced_map m) =
      SimpleSubs.get_reduced_map m := by
  have hfix := SimpleSubs.reduceLoop_fixed m
    ((m.filter (fun l => l.length == 1)).flatten) hnd
    (fun s hs => Or.inl (by
      rw [List.mem_flatten]
      exact ⟨[s], List.mem_filter.mpr ⟨hs, by simp⟩, List.mem_singleton.mpr rfl⟩))
  rw [SimpleSubs.get_reduced_map, SimpleSubs.get_reduced_map]
  exact SimpleSubs.reduceLoop_noop _ hfix.1 _
    (fun s hs => SimpleSubs.mem_initial_queue _ s hs)

/-- Witness for C6 at a concrete duplicate-free map: solving the first entry
removes B from the others, cascading a second solution, and a repeated run
changes nothing. -/
theorem c6_get_reduced_map_idempotent_witness :
    SimpleSubs.get_reduced_map
        (SimpleSubs.get_reduced_map [['B'], ['B', 'C'], ['B', 'C', 'D']]) =
      SimpleSubs.get_reduced_map [['B'], ['B', 'C'], ['B', 'C', 'D']] :=
  c6_get_reduced_map_idempotent [['B'], ['B', 'C'], ['B', 'C', 'D']] (by decide)

theorem pyFind_of_mem (l : List Char) (c : Char) (h : c ∈ l) :
    ∃ i : Nat, i < l.length ∧ pyFind l c = (i : Int) ∧ l.getD i ' ' = c := by
  have hex : ∃ x, x ∈ l ∧ (x == c) = true := ⟨c, h, by simp⟩
  have hs := List.findIdx?_eq_some_of_exists hex
  obtain ⟨hlt, hp, -⟩ := List.findIdx?_eq_some_iff_getElem.mp hs
  refine ⟨l.findIdx (· == c), hlt, ?_, ?_⟩
  · rw [pyFind, hs]
  · rw [List.getD_eq_getElem?_getD, List.getElem?_eq_getElem hlt]
    simpa using beq_iff_eq.mp hp

theorem pyFind_getD (l : List Char) (hnd : l.Nodup) (i : Nat) (hi : i < l.length) :
    pyFind l (l.getD i ' ') = (i : Int) := by
  have hgd : l.getD i ' ' = l[i] := by
    rw [List.getD_eq_getElem?_getD, List.getElem?_eq_getElem hi]
    rfl
  rw [hgd]
  have hfi : l.findIdx? (· == l[i]) = some i := by
    rw [List.findIdx?_eq_some_iff_getElem]
    refine ⟨hi, by simp, ?_⟩
    intro j hji
    simp only [beq_iff_eq]
    intro he
    have := (List.Nodup.getElem_inj_iff hnd).mp he
    omega
  rw [pyFind, hfi]

theorem getD_mem (l : List Char) (i : Nat) (hi : i < l.length) : l.getD i ' ' ∈ l := by
  rw [List.getD_eq_getElem?_getD, List.getElem?_eq_getElem hi]
  exact List.getElem_mem hi

namespace Caesar

/-- The 64-symbol set of caesar-chiper.py (letters both cases plus
punctuation). -/
def SYMBOLS : List Char :=
  "ABCDEFGHIJKLMNOPQRSTUVWXYZabcdefghijklmnopqrstuvwxyz!@#$%^&*()_+".toList

/-- The wrap-around adjustment shared by `encrypt_msg` and `decrypt_msg` in
caesar-chiper.py: subtract the symbol count when the index is at or above
it, add it when the index is negative. -/
def wrapIdx (idx : Int) : Int :=
  if (SYMBOLS.length : Int) ≤ idx then idx - SYMBOLS.length
  else if idx < 0 then idx + SYMBOLS.length else idx

/-- Per-character body of `encrypt_msg` in caesar-chiper.py: find the symbol
index, add the key, wrap, and look the result up; characters outside the
symbol set pass through unchanged. -/
def encrypt_char (key : Int) (char : Char) : Char :=
  if char ∈ SYMBOLS then
    SYMBOLS.getD (wrapIdx (pyFind SYMBOLS char + key)).toNat ' '
  else char

/-- `encrypt_msg(msg, key, SYMBOLS)` from caesar-chiper.py. -/
def encrypt_msg (msg : List Char) (key : Int) : List Char :=
  msg.map (encrypt_char key)

/-- Per-character body of `decrypt_msg` in caesar-chiper.py (subtracts the
key instead of adding it). -/
def decrypt_char (key : Int) (char : Char) : Char :=
  if char ∈ SYMBOLS then
    SYMBOLS.getD (wrapIdx (pyFind SYMBOLS char - key)).toNat ' '
  else char

/-- `decrypt_msg(msg, key, SYMBOLS)` from caesar-chiper.py. -/
def decrypt_msg (msg : List Char) (key : Int) : List Char :=
  msg.map (decrypt_char key)

theorem wrapIdx_eq_emod (idx : Int) (hlo : -64 ≤ idx) (hhi : idx < 128) :
    wrapIdx idx = idx % 64 := by
  have hlen : SYMBOLS.length = 64 := by decide
  rw [wrapIdx, hlen]
  simp only [Nat.cast_ofNat]
  split
  · omega
  · split
    · omega
    · omega

theorem caesar_char_roundtrip (key : Int) (h0 : 0 ≤ key) (h64 : key < 64)
    (c : Char) : decrypt_char key (encrypt_char key c) = c := by
  have hnd : SYMBOLS.Nodup := by decide
  have hlen : SYMBOLS.length = 64 := by decide
  by_cases hc : c ∈ SYMBOLS
  · obtain ⟨i, hi, hfind, hget⟩ := pyFind_of_mem SYMBOLS c hc
    rw [hlen] at hi
    have henc : encrypt_char key c =
        SYMBOLS.getD (wrapIdx ((i : Int) + key)).toNat ' ' := by
      rw [encrypt_char, if_pos hc, hfind]
    have hw := wrapIdx_eq_emod ((i : Int) + key) (by omega) (by omega)
    set j : Int := ((i : Int) + key) % 64 with hj
    have hjb : 0 ≤ j ∧ j < 64 := by omega
    have hjlt : j.toNat < SYMBOLS.length := by
      rw [hlen]
      omega
    rw [henc, hw]
    have hmem := getD_mem SYMBOLS j.toNat hjlt
    rw [decrypt_char, if_pos hmem, pyFind_getD SYMBOLS hnd j.toNat hjlt]
    have hcast : ((j.toNat : Nat) : Int) = j := Int.toNat_of_nonneg hjb.1
    rw [hcast]
    have hw2 := wrapIdx_eq_emod (j - key) (by omega) (by omega)
    rw [hw2]
    have hji : (j - key) % 64 = (i : Int) := by omega
    rw [hji]
    simpa using hget
  · rw [encrypt_char, if_neg hc, decrypt_char, if_neg hc]

/-- Round-trip of the Caesar cipher of caesar-chiper.py over its 64-symbol
set, for every key in its valid keyspace 0..63 (the range its own
`derive_key`/`brute_force` enumerate), with passthrough characters
preserved in place.  Together with the Vigenere failing input of C1 this
locates the round-trip breakage precisely in the Vigenere key handling. -/
theorem caesar_roundtrip (msg : List Char) (key : Int) (h0 : 0 ≤ key)
    (h64 : key < 64) : decrypt_msg (encrypt_msg msg key) key = msg := by
  rw [encrypt_msg, decrypt_msg, List.map_map]
  have hpt : ∀ c ∈ msg, (decrypt_char key ∘ encrypt_char key) c = c := fun c _ =>
    caesar_char_roundtrip key h0 h64 c
  rw [List.map_congr_left hpt]
  exact List.map_id' msg

end Caesar

namespace Affine

/-- The 66-symbol set of ciphers/affine_cipher.py. -/
def SYMBOLS : List Char :=
  "ABCDEFGHIJKLMNOPQRSTUVWXYZabcdefghijklmnopqrstuvwxyz!@#$%^&*()_+[]".toList

/-- `SYMBOL_LEN = len(SYMBOLS)` from ciphers/affine_cipher.py (66). -/
def SYMBOL_LEN : Nat := SYMBOLS.length

/-- Modelled from the spec: `cryptomath.find_mod_inverse(a, m)` — the
cryptomath module is not under src/.  The affine decryptor "uses the
Euclid's algorithm to calculate the modular inverse of key_a" and §7 names
the failure mode when keys are not coprime; the model returns the unique
inverse in `[0, m)` when one exists and `none` otherwise. -/
def find_mod_inverse (a : Int) (m : Nat) : Option Int :=
  ((List.range m).find? (fun (i : Nat) => a * (i : Int) % (m : Int) == 1)).map
    (fun (i : Nat) => (i : Int))

/-- `validate_key(key)` from ciphers/affine_cipher.py: split the packed key
into `key_a = key // SYMBOL_LEN` and `key_b = key % SYMBOL_LEN`, and reject
it unless key_a is coprime with the symbol count and both components exceed
1 (and are nonnegative).  `cryptomath.gcd` (not under src/) is modelled from
the spec's "multiplicative component must be coprime with alphabet size" as
the mathematical gcd.  Negative keys are rejected on every Python/Lean
division convention: a negative key gives either a negative `key_a` or
`key_a = 0`, whose gcd with 66 is 66 ≠ 1. -/
def validate_key (key : Int) : Option (Int × Int) :=
  let keyA := key / (SYMBOL_LEN : Int)
  let keyB := key % (SYMBOL_LEN : Int)
  if Int.gcd keyA SYMBOL_LEN ≠ 1 ∨ (keyA < 0 ∨ keyB < 0) ∨ (keyA ≤ 1 ∨ keyB ≤ 1)
  then none
  else some (keyA, keyB)

/-- Per-character body of `encrypt(cleartext, key)` in
ciphers/affine_cipher.py: index, multiply by key_a, add key_b, reduce mod
the symbol count; passthrough characters are unchanged. -/
def encrypt_char (keyA keyB : Int) (char : Char) : Char :=
  if char ∈ SYMBOLS then
    SYMBOLS.getD ((pyFind SYMBOLS char * keyA + keyB) % (SYMBOL_LEN : Int)).toNat ' '
  else char

/-- `encrypt(cleartext, key)` from ciphers/affine_cipher.py on the
provided-key path: validate, then transform (`none` models the
`sys.exit` on an invalid key). -/
def encrypt (cleartext : List Char) (key : Int) : Option (List Char) :=
  match validate_key key with
  | none => none
  | some (keyA, keyB) => some (cleartext.map (encrypt_char keyA keyB))

/-- Per-character body of `decrypt(ciphertext, key)` in
ciphers/affine_cipher.py: index, subtract key_b (wrapping once if
negative), multiply by the modular inverse of key_a, reduce mod the symbol
count. -/
def decrypt_char (keyB modInverse : Int) (char : Char) : Char :=
  if char ∈ SYMBOLS then
    SYMBOLS.getD
      (((if pyFind SYMBOLS char - keyB < 0
          then pyFind SYMBOLS char - keyB + (SYMBOL_LEN : Int)
          else pyFind SYMBOLS char - keyB) * modInverse) % (SYMBOL_LEN : Int)).toNat ' '
  else char

/-- `decrypt(ciphertext, key)` from ciphers/affine_cipher.py: validate the
key, compute the modular inverse of key_a, then transform (`none` models
the `sys.exit` paths). -/
def decrypt (ciphertext : List Char) (key : Int) : Option (List Char) :=
  match validate_key key with
  | none => none
  | some (keyA, keyB) =>
    match find_mod_inverse keyA SYMBOL_LEN with
    | none => none
    | some modInverse => some (ciphertext.map (decrypt_char keyB modInverse))

theorem find_mod_inverse_of_coprime (a : Int) (ha : 0 ≤ a)
    (hg : Int.gcd a 66 = 1) :
    ∃ inv : Int, find_mod_inverse a 66 = some inv ∧ 0 ≤ inv ∧
      a * inv % 66 = 1 := by
  have hgn : Nat.gcd a.toNat 66 = 1 := by
    rw [Int.gcd] at hg
    have hna : a.natAbs = a.toNat := by omega
    rw [hna] at hg
    simpa using hg
  have hbez := Nat.gcd_eq_gcd_ab a.toNat 66
  rw [hgn] at hbez
  set x := Nat.gcdA a.toNat 66 with hx
  set y := Nat.gcdB a.toNat 66 with hy
  have hcast : ((a.toNat : Nat) : Int) = a := Int.toNat_of_nonneg ha
  have hbez' : a * x + 66 * y = 1 := by
    rw [← hcast]
    push_cast at hbez ⊢
    linarith
  have h0 : 0 ≤ x % 66 := Int.emod_nonneg x (by decide)
  have hlt : x % 66 < 66 := Int.emod_lt_of_pos x (by decide)
  have hprop : a * ((x % 66).toNat : Int) % 66 = 1 := by
    rw [Int.toNat_of_nonneg h0]
    have h1 : a * (x % 66) % 66 = a * x % 66 := by
      rw [Int.mul_emod a (x % 66), Int.emod_emod_of_dvd x dvd_rfl, ← Int.mul_emod]
    rw [h1]
    have h2 : a * x = 1 + 66 * (-y) := by linarith
    rw [h2, Int.add_mul_emod_self_left]
    decide
  have hmem : ∃ i ∈ List.range 66, (a * (i : Int) % ((66 : Nat) : Int) == 1) = true := by
    refine ⟨(x % 66).toNat, List.mem_range.mpr (by omega), ?_⟩
    rw [beq_iff_eq]
    push_cast
    exact hprop
  obtain ⟨i, hfound⟩ := Option.isSome_iff_exists.mp (List.find?_isSome.mpr hmem)
  have hpi := List.find?_some hfound
  rw [beq_iff_eq] at hpi
  refine ⟨(i : Int), ?_, by positivity, by push_cast at hpi ⊢; exact hpi⟩
  rw [find_mod_inverse, hfound]
  rfl

theorem affine_char_roundtrip (keyA keyB inv : Int)
    (hinv : keyA * inv % 66 = 1) (c : Char) :
    decrypt_char keyB inv (encrypt_char keyA keyB c) = c := by
  have hnd : SYMBOLS.Nodup := by decide
  have hlen : SYMBOLS.length = 66 := by decide
  have hSL : (SYMBOL_LEN : Int) = 66 := by decide
  by_cases hc : c ∈ SYMBOLS
  · obtain ⟨i, hi, hfind, hget⟩ := pyFind_of_mem SYMBOLS c hc
    rw [hlen] at hi
    set e : Int := ((i : Int) * keyA + keyB) % 66 with he
    have he0 : 0 ≤ e := Int.emod_nonneg _ (by decide)
    have helt : e < 66 := Int.emod_lt_of_pos _ (by decide)
    have hetl : e.toNat < SYMBOLS.length := by
      rw [hlen]
      omega
    have henc : encrypt_char keyA keyB c = SYMBOLS.getD e.toNat ' ' := by
      rw [encrypt_char, if_pos hc, hfind, hSL]
    rw [henc]
    have hmem := getD_mem SYMBOLS e.toNat hetl
    rw [decrypt_char, if_pos hmem, pyFind_getD SYMBOLS hnd e.toNat hetl, hSL]
    have hcast : ((e.toNat : Nat) : Int) = e := Int.toNat_of_nonneg he0
    rw [hcast]
    set r : Int := if e - keyB < 0 then e - keyB + 66 else e - keyB with hr
    have hrmod : r % 66 = ((i : Int) * keyA) % 66 := by
      have h2 : e % 66 = ((i : Int) * keyA + keyB) % 66 := by
        rw [he]
        exact Int.emod_emod_of_dvd _ dvd_rfl
      rw [hr]
      split <;> omega
    have hf : (r * inv) % 66 = (i : Int) := by
      have m1 : (r * inv) % 66 = (((i : Int) * keyA) * inv) % 66 := by
        rw [Int.mul_emod r inv, hrmod, ← Int.mul_emod]
      rw [m1, mul_assoc, Int.mul_emod ((i : Int)) (keyA * inv), hinv, mul_one]
      have hii : (i : Int) % 66 = (i : Int) := Int.emod_eq_of_lt (by positivity)
        (by exact_mod_cast hi)
      rw [hii, hii]
    rw [hf]
    simpa using hget
  · have hout : encrypt_char keyA keyB c = c := by
      rw [encrypt_char, if_neg hc]
    rw [hout, decrypt_char, if_neg hc]

/-- Round-trip of the affine cipher of ciphers/affine_cipher.py over its
66-symbol set: for every key accepted by `validate_key`, encryption
succeeds and decryption (through the modular inverse of key_a, which
exists by coprimality) restores the message exactly, passthrough
characters included.  Together with `Caesar.caesar_roundtrip` this
supports claim C1 for the Caesar and affine families, isolating the
round-trip failure in the Vigenere key handling. -/
theorem affine_roundtrip (msg : List Char) (key keyA keyB : Int)
    (hval : validate_key key = some (keyA, keyB)) :
    ∃ ciphertext : List Char, encrypt msg key = some ciphertext ∧
      decrypt ciphertext key = some msg := by
  have hSL : SYMBOL_LEN = 66 := by decide
  have hfacts : Int.gcd keyA 66 = 1 ∧ 0 ≤ keyA ∧ 0 ≤ keyB ∧ keyB < 66 := by
    rw [validate_key, hSL] at hval
    split at hval
    · exact absurd hval (by simp)
    · next hguard =>
      push_neg at hguard
      obtain ⟨hg, hsign, hgt⟩ := hguard
      have h1 : keyA = key / (66 : Int) ∧ keyB = key % (66 : Int) := by
        have h2 := hval
        simp only [Option.some_inj, Prod.mk.injEq] at h2
        exact ⟨h2.1.symm, h2.2.symm⟩
      refine ⟨?_, by omega, by omega, ?_⟩
      · rw [h1.1]
        exact hg
      · rw [h1.2]
        exact Int.emod_lt_of_pos key (by decide)
  obtain ⟨hg, hA0, hB0, hBlt⟩ := hfacts
  obtain ⟨inv, hinv_eq, hinv0, hinv⟩ := find_mod_inverse_of_coprime keyA hA0 hg
  refine ⟨msg.map (encrypt_char keyA keyB), ?_, ?_⟩
  · simp only [encrypt, hval]
  · simp only [decrypt, hval, hSL, hinv_eq]
    rw [List.map_map]
    have hpt : ∀ c ∈ msg, (decrypt_char keyB inv ∘ encrypt_char keyA keyB) c = c :=
      fun c _ => affine_char_roundtrip keyA keyB inv hinv c
    rw [List.map_congr_left hpt, List.map_id']

end Affine
